import Mathlib

/-!
Verification of the tree fetcher `get_github_code_files` (githubauth.py).

The Python function performs a breadth-first traversal of a repository
directory tree over the GitHub contents API.  We embed it shallowly:

* the remote API (for fixed owner, repo, branch and credential) is a
  `World`: a function from repository-relative path to the listing
  response, and a function from download URL to the optional raw text of
  a successful authenticated GET (`none` models a
  `requests.exceptions.RequestException`, which includes HTTP errors
  raised by `raise_for_status`);
* Python dicts holding JSON listing entries become the `Item` structure;
  an `Option` field set to `none` models an absent key (or, for the
  truthiness checks, an absent-or-falsy value);
* `base64.b64decode` followed by `.decode("utf-8")` is implemented
  directly (`b64decodeUtf8`), distinguishing the decoded text, the
  `binascii.Error`/`UnicodeDecodeError` failures the inner handler
  catches, and the bare `ValueError` raised on non-ASCII input, which
  only the outer `except ValueError` catches;
* the `while queue:` loop becomes the fuel-indexed `runLoop`; `none`
  means the fuel ran out, `some r` that the Python call finished with
  outcome `r` (a returned dict, or an uncaught `KeyError`).
-/

/-- A JSON listing entry as the code reads it: `item["type"]`,
`item["path"]`, and the optional fields consulted by the truthiness
checks `"download_url" in item and item["download_url"]` and
`"content" in item and item["content"]`.  For `download_url` and
`content`, `none` covers both an absent key and a falsy (`None`) value,
which the code treats identically; the empty string is the other falsy
value.  For `encoding`, `none` means the key is absent, so that
`item["encoding"]` raises `KeyError`. -/
structure Item where
  type : String
  path : String
  download_url : Option String := none
  content : Option String := none
  encoding : Option String := none
  deriving DecidableEq, Repr

/-- The possible outcomes of one listing request
(`session.get(contents_url ...)` followed by `raise_for_status` and
`response.json()`): a JSON object (single file), a JSON list, an HTTP
error with its status code, a connection-level error, or a JSON parse
error. -/
inductive ListingResponse where
  | objectItem (it : Item)
  | listItems (its : List Item)
  | httpError (status : Nat)
  | transportError
  | jsonError
  deriving DecidableEq, Repr

/-- The remote API for one fixed (owner, repo, branch, credential):
`listing p` is the response to the contents request for path `p`, and
`download u` is the text of a successful authenticated GET of download
URL `u` (`none` when that request raises `RequestException`). -/
structure World where
  listing : String → ListingResponse
  download : String → Option String

/-- What the Python call externally does: return a dict (an association
list with unique keys, in insertion order), or die with an uncaught
`KeyError` from `item["encoding"]`. -/
inductive RunResult where
  | ok (files : List (String × String))
  | keyError
  deriving DecidableEq, Repr

/-- Value of a single base64 alphabet character. -/
def b64Val (c : Char) : Option Nat :=
  if ('A' ≤ c ∧ c ≤ 'Z') then some (c.toNat - 'A'.toNat)
  else if ('a' ≤ c ∧ c ≤ 'z') then some (c.toNat - 'a'.toNat + 26)
  else if ('0' ≤ c ∧ c ≤ '9') then some (c.toNat - '0'.toNat + 52)
  else if c = '+' then some 62
  else if c = '/' then some 63
  else none

/-- The decoding loop of non-strict `binascii.a2b_base64`, which
`base64.b64decode` calls.  State: output bytes accumulated in reverse,
position inside the current quad (0 to 3), the pending bits of the
unfinished quad, and the count of padding characters seen since the
last alphabet character.  Characters outside the alphabet are skipped.
A padding character is ignored while the quad holds fewer than two
characters; once it holds two or three, a padding character that
completes the quad to four ends decoding successfully (anything later
is ignored).  Input exhausted mid-quad is the "Incorrect padding" (or
"cannot be 1 more than a multiple of 4") `binascii.Error`, modelled as
`none`. -/
def a2bBase64Loop : List Char → List Nat → Nat → Nat → Nat → Option (List Nat)
  | [], acc, quadPos, _, _ =>
    if quadPos = 0 then some acc.reverse else none
  | ch :: rest, acc, quadPos, leftchar, pads =>
    if ch = '=' then
      if 2 ≤ quadPos then
        if 4 ≤ quadPos + pads + 1 then some acc.reverse
        else a2bBase64Loop rest acc quadPos leftchar (pads + 1)
      else a2bBase64Loop rest acc quadPos leftchar pads
    else
      match b64Val ch with
      | none => a2bBase64Loop rest acc quadPos leftchar pads
      | some v =>
        if quadPos = 0 then a2bBase64Loop rest acc 1 v 0
        else if quadPos = 1 then
          a2bBase64Loop rest ((leftchar * 4 + v / 16) :: acc) 2 (v % 16) 0
        else if quadPos = 2 then
          a2bBase64Loop rest ((leftchar * 16 + v / 4) :: acc) 3 (v % 4) 0
        else a2bBase64Loop rest ((leftchar * 64 + v) :: acc) 0 0 0

/-- Outcome of `base64.b64decode(c).decode("utf-8")` on a `str`
argument, split the way the exception handlers of the code split it:
`ok` is the decoded text; `caughtError` is a `binascii.Error` or a
`UnicodeDecodeError`, both matched by the inner handler (the file is
skipped); `plainValueError` is the bare `ValueError` that
`b64decode` raises through its implicit `.encode("ascii")` when the
string holds a non-ASCII character — not a `binascii.Error`, so it
escapes the inner handler and is caught by the outer `except
ValueError`, aborting the whole run. -/
inductive DecodeOutcome where
  | ok (text : String)
  | caughtError
  | plainValueError
  deriving DecidableEq, Repr

/-- Strict UTF-8 decoding of a byte list, as `.decode("utf-8")`:
rejects stray continuation bytes, overlong encodings, surrogates and
out-of-range code points. -/
def utf8Decode : List Nat → Option (List Char)
  | [] => some []
  | b :: rest =>
    if b < 0x80 then
      match utf8Decode rest with
      | some cs => some (Char.ofNat b :: cs)
      | none => none
    else if b < 0xC2 then none
    else if b < 0xE0 then
      match rest with
      | c :: rest2 =>
        if 0x80 ≤ c ∧ c < 0xC0 then
          match utf8Decode rest2 with
          | some cs => some (Char.ofNat ((b - 0xC0) * 64 + (c - 0x80)) :: cs)
          | none => none
        else none
      | [] => none
    else if b < 0xF0 then
      match rest with
      | c :: d :: rest2 =>
        if (0x80 ≤ c ∧ c < 0xC0) ∧ (0x80 ≤ d ∧ d < 0xC0) then
          let n := (b - 0xE0) * 4096 + (c - 0x80) * 64 + (d - 0x80)
          if n < 0x800 then none
          else if 0xD800 ≤ n ∧ n < 0xE000 then none
          else
            match utf8Decode rest2 with
            | some cs => some (Char.ofNat n :: cs)
            | none => none
        else none
      | _ => none
    else if b < 0xF5 then
      match rest with
      | c :: d :: e :: rest2 =>
        if (0x80 ≤ c ∧ c < 0xC0) ∧ (0x80 ≤ d ∧ d < 0xC0) ∧
           (0x80 ≤ e ∧ e < 0xC0) then
          let n := (b - 0xF0) * 262144 + (c - 0x80) * 4096 +
                   (d - 0x80) * 64 + (e - 0x80)
          if n < 0x10000 then none
          else if 0x110000 ≤ n then none
          else
            match utf8Decode rest2 with
            | some cs => some (Char.ofNat n :: cs)
            | none => none
        else none
      | _ => none
    else none

/-- `base64.b64decode(c).decode("utf-8")`: first the implicit
`c.encode("ascii")` (a bare `ValueError` on any non-ASCII character),
then the `a2b_base64` loop (a `binascii.Error` on bad padding), then
strict UTF-8 decoding (a `UnicodeDecodeError` on invalid bytes). -/
def b64decodeUtf8 (c : String) : DecodeOutcome :=
  if c.data.any (fun ch => 128 ≤ ch.toNat) then .plainValueError
  else
    match a2bBase64Loop c.data [] 0 0 0 with
    | none => .caughtError
    | some bytes =>
      match utf8Decode bytes with
      | some cs => .ok (String.mk cs)
      | none => .caughtError

/-- The check `"download_url" in item and item["download_url"]`. -/
def hasDownloadUrl (it : Item) : Bool :=
  match it.download_url with
  | some u => u ≠ ""
  | none => false

/-- The check `"content" in item and item["content"]`. -/
def hasInlineContent (it : Item) : Bool :=
  match it.content with
  | some c => c ≠ ""
  | none => false

/-- Effect of processing one file entry in the item loop.  `store c`
inserts `c` under the path of the entry; `skip` is the per-file warning
(nothing stored, loop continues); `keyError` is the uncaught `KeyError`
raised by `item["encoding"]`, which kills the whole call; `fatal` is
the bare `ValueError` of a non-ASCII content string, which escapes the
inner handler, is caught by the outer `except ValueError`, and makes
the call return the empty dict at once. -/
inductive FileOutcome where
  | store (c : String)
  | skip
  | keyError
  | fatal
  deriving DecidableEq, Repr

/-- Processing of one file entry in the item loop, following the
if/elif/else of the source together with its inner try/except pairs. -/
def fileOutcome (w : World) (it : Item) : FileOutcome :=
  if hasDownloadUrl it then
    match w.download (it.download_url.getD "") with
    | some text => .store text
    | none => .skip
  else if hasInlineContent it then
    match it.encoding with
    | none => .keyError
    | some enc =>
      if enc = "base64" then
        match b64decodeUtf8 (it.content.getD "") with
        | .ok s => .store s
        | .caughtError => .skip
        | .plainValueError => .fatal
      else .skip
  else .skip

/-- Result of the `for item in items:` loop: the (path, content) pairs
stored into `code_files` and the directory paths appended to `queue`
(both in encounter order), or one of the two ways the loop can abort
the call. -/
inductive ItemsResult where
  | ok (fs : List (String × String)) (ds : List String)
  | keyError
  | fatal
  deriving DecidableEq, Repr

/-- The `for item in items:` loop, as its effects on the state.  A
`keyError` or `fatal` entry aborts the loop at that entry. -/
def processItems (w : World) : List Item → ItemsResult
  | [] => .ok [] []
  | it :: rest =>
    if it.type = "file" then
      match fileOutcome w it with
      | .keyError => .keyError
      | .fatal => .fatal
      | .skip => processItems w rest
      | .store c =>
        match processItems w rest with
        | .ok fs ds => .ok ((it.path, c) :: fs) ds
        | .keyError => .keyError
        | .fatal => .fatal
    else if it.type = "dir" then
      match processItems w rest with
      | .ok fs ds => .ok fs (it.path :: ds)
      | .keyError => .keyError
      | .fatal => .fatal
    else processItems w rest

/-- Python dict assignment `d[k] = v`: update in place if the key
exists, else append. -/
def dictInsert (d : List (String × String)) (k v : String) : List (String × String) :=
  if d.any (fun p => p.1 = k) then
    d.map (fun p => if p.1 = k then (k, v) else p)
  else d ++ [(k, v)]

/-- Fold a batch of stores into the dict, in order. -/
def dictInsertAll (d : List (String × String)) (l : List (String × String)) : List (String × String) :=
  l.foldl (fun d p => dictInsert d p.1 p.2) d

/-- Normalisation of a listing response in the loop body: the JSON body
(an object wrapped into a one-element list, or a list), or `none` for
the three caught error kinds (`HTTPError` after `raise_for_status`,
other `RequestException`, `ValueError` from `response.json()`), each of
which makes the function return the empty dict. -/
def itemsOf : ListingResponse → Option (List Item)
  | .objectItem it => some [it]
  | .listItems its => some its
  | .httpError _ => none
  | .transportError => none
  | .jsonError => none

/-- The `while queue:` loop, indexed by fuel.  `none`: out of fuel.
A listing failure, and a bare `ValueError` escaping the item loop,
both return `some (.ok [])` — the `return {}` in the `except` clauses,
discarding `files`.  A `KeyError` from an item is uncaught:
`some .keyError`. -/
def runLoop (w : World) : Nat → List String → List (String × String) → Option RunResult
  | 0, _, _ => none
  | _ + 1, [], files => some (.ok files)
  | n + 1, p :: rest, files =>
    match itemsOf (w.listing p) with
    | none => some (.ok [])
    | some its =>
      match processItems w its with
      | .keyError => some .keyError
      | .fatal => some (.ok [])
      | .ok fs ds => runLoop w n (rest ++ ds) (dictInsertAll files fs)

/-- `path.strip("/")`: remove every leading and trailing slash. -/
def stripSlashes (s : String) : String :=
  String.mk (((s.data.dropWhile (fun c => c = '/')).reverse.dropWhile
    (fun c => c = '/')).reverse)

/-- The whole function: seed the queue with the normalised starting
path and drain it.  Owner, repo, branch and credential are fixed inside
`w`. -/
def get_github_code_files (w : World) (fuel : Nat) (path : String) : Option RunResult :=
  runLoop w fuel [stripSlashes path] []

/-- The items of a successful listing (empty for a failed one); used to
phrase what the listing API reported. -/
def listingItems (r : ListingResponse) : List Item :=
  (itemsOf r).getD []

/-- `p` is a key of the dict `d`. -/
def isKey (d : List (String × String)) (p : String) : Prop :=
  ∃ v, (p, v) ∈ d

/-- One traversal step: the listing for `d` reported `q` as a
directory. -/
def dirChild (w : World) (d q : String) : Prop :=
  ∃ it ∈ listingItems (w.listing d), it.type = "dir" ∧ it.path = q

/-- `d` is reachable from `start` through directory entries. -/
def ReachDir (w : World) (start d : String) : Prop :=
  Relation.ReflTransGen (dirChild w) start d

/-- `p` is the path of a file entry listed under some directory
reachable from `start`. -/
def ReachFile (w : World) (start p : String) : Prop :=
  ∃ d, ReachDir w start d ∧
    ∃ it ∈ listingItems (w.listing d), it.type = "file" ∧ it.path = p

/-- `p` is the path of a directory entry listed under some directory
reachable from `start`. -/
def ReachDirEntry (w : World) (start p : String) : Prop :=
  ∃ d, ReachDir w start d ∧
    ∃ it ∈ listingItems (w.listing d), it.type = "dir" ∧ it.path = p

/-- The listing request for this response succeeded. -/
def listingOk (r : ListingResponse) : Prop :=
  (itemsOf r).isSome = true

/-- The paths dequeued (each triggering one listing request) during a
run of the main loop from a given fuel and queue; the control flow does
not depend on the accumulated dict, so that argument is absent. -/
def visited (w : World) : Nat → List String → List String
  | 0, _ => []
  | _ + 1, [] => []
  | n + 1, p :: rest =>
    p :: (match itemsOf (w.listing p) with
      | none => []
      | some its =>
        match processItems w its with
        | .keyError => []
        | .fatal => []
        | .ok _ ds => visited w n (rest ++ ds))

section Example

/-- The file entry "a.txt" of the fixed example tree: content "hello"
supplied only inline as base64. -/
def aItem : Item :=
  { type := "file", path := "a.txt", content := some "aGVsbG8=",
    encoding := some "base64" }

/-- The directory entry "sub" of the fixed example tree. -/
def subItem : Item := { type := "dir", path := "sub" }

/-- The file entry "sub/b.txt" of the fixed example tree: content
"world" supplied via a download URL. -/
def bItem : Item :=
  { type := "file", path := "sub/b.txt",
    download_url := some "https://raw.example/b.txt" }

/-- The fixed example world: root lists `a.txt` and `sub/`; `sub` lists
`b.txt`; every other path is 404; the one download URL serves
"world". -/
def wEx : World where
  listing p :=
    if p = "" then .listItems [aItem, subItem]
    else if p = "sub" then .listItems [bItem]
    else .httpError 404
  download u :=
    if u = "https://raw.example/b.txt" then some "world" else none

end Example

example : b64decodeUtf8 "aGVsbG8=" = .ok "hello" := by decide

example : get_github_code_files wEx 3 "" =
    some (.ok [("a.txt", "hello"), ("sub/b.txt", "world")]) := by decide

/-! ### Item-loop lemmas -/

lemma processItems_skip_middle {w : World} {it : Item}
    (hty : it.type = "file") (ho : fileOutcome w it = .skip) :
    ∀ pre post : List Item,
      processItems w (pre ++ it :: post) = processItems w (pre ++ post) := by
  intro pre
  induction pre with
  | nil =>
    intro post
    show processItems w (it :: post) = processItems w post
    simp [processItems, hty, ho]
  | cons a pre ih =>
    intro post
    show processItems w (a :: (pre ++ it :: post)) = processItems w (a :: (pre ++ post))
    unfold processItems
    rw [ih post]

lemma processItems_keyError {w : World} :
    ∀ {its : List Item},
    (∀ j ∈ its, j.type = "file" → fileOutcome w j ≠ .fatal) →
    ∀ {it : Item}, it ∈ its → it.type = "file" → fileOutcome w it = .keyError →
    processItems w its = .keyError := by
  intro its
  induction its with
  | nil => intro _ it hmem; cases hmem
  | cons a rest ih =>
    intro hnf it hmem hty ho
    rcases List.mem_cons.mp hmem with rfl | hmem2
    · simp [processItems, hty, ho]
    · have hrest : processItems w rest = .keyError :=
        ih (fun j hj => hnf j (List.mem_cons_of_mem a hj)) hmem2 hty ho
      by_cases hf : a.type = "file"
      · cases hfo : fileOutcome w a with
        | store c => simp [processItems, hf, hfo, hrest]
        | skip => simp [processItems, hf, hfo, hrest]
        | keyError => simp [processItems, hf, hfo]
        | fatal => exact absurd hfo (hnf a (List.mem_cons_self a rest) hf)
      · by_cases hd : a.type = "dir"
        · simp [processItems, hf, hd, hrest]
        · simp [processItems, hf, hd, hrest]

lemma processItems_ok_of_retrievable {w : World} :
    ∀ {its : List Item},
    (∀ it ∈ its, it.type = "file" → ∃ c, fileOutcome w it = .store c) →
    ∃ fs ds, processItems w its = .ok fs ds := by
  intro its
  induction its with
  | nil => intro _; exact ⟨[], [], rfl⟩
  | cons a rest ih =>
    intro h
    obtain ⟨fs, ds, hpi⟩ := ih (fun it hm hty => h it (List.mem_cons_of_mem a hm) hty)
    by_cases hf : a.type = "file"
    · obtain ⟨c, hc⟩ := h a (List.mem_cons_self a rest) hf
      exact ⟨(a.path, c) :: fs, ds, by simp [processItems, hf, hc, hpi]⟩
    · by_cases hd : a.type = "dir"
      · exact ⟨fs, a.path :: ds, by simp [processItems, hf, hd, hpi]⟩
      · exact ⟨fs, ds, by simp [processItems, hf, hd, hpi]⟩

lemma processItems_spec {w : World} :
    ∀ {its : List Item} {fs : List (String × String)} {ds : List String},
    processItems w its = .ok fs ds →
    (∀ p c, ((p, c) ∈ fs ↔
       ∃ it ∈ its, it.type = "file" ∧ it.path = p ∧ fileOutcome w it = .store c)) ∧
    (∀ d, (d ∈ ds ↔ ∃ it ∈ its, it.type = "dir" ∧ it.path = d)) := by
  intro its
  induction its with
  | nil =>
    intro fs ds h
    simp [processItems] at h
    obtain ⟨rfl, rfl⟩ := h
    constructor
    · intro p c; simp
    · intro d; simp
  | cons a rest ih =>
    intro fs ds h
    unfold processItems at h
    by_cases hf : a.type = "file"
    · rw [if_pos hf] at h
      cases hfo : fileOutcome w a with
      | keyError => rw [hfo] at h; cases h
      | fatal => rw [hfo] at h; cases h
      | skip =>
        rw [hfo] at h
        rcases ih h with ⟨hfs, hds⟩
        constructor
        · intro p c
          rw [hfs p c]
          constructor
          · rintro ⟨it, h1, h2⟩
            exact ⟨it, List.mem_cons_of_mem a h1, h2⟩
          · rintro ⟨it, h1, h2, h3, h4⟩
            rcases List.mem_cons.mp h1 with rfl | h1
            · rw [hfo] at h4; cases h4
            · exact ⟨it, h1, h2, h3, h4⟩
        · intro d
          rw [hds d]
          constructor
          · rintro ⟨it, h1, h2⟩
            exact ⟨it, List.mem_cons_of_mem a h1, h2⟩
          · rintro ⟨it, h1, h2, h3⟩
            rcases List.mem_cons.mp h1 with rfl | h1
            · exact absurd (hf.symm.trans h2) (by decide)
            · exact ⟨it, h1, h2, h3⟩
      | store c0 =>
        rw [hfo] at h
        cases hrest : processItems w rest with
        | keyError => rw [hrest] at h; cases h
        | fatal => rw [hrest] at h; cases h
        | ok fs0 ds0 =>
          rw [hrest] at h
          simp only [ItemsResult.ok.injEq] at h
          obtain ⟨h1eq, h2eq⟩ := h
          subst h1eq; subst h2eq
          rcases ih hrest with ⟨hfs, hds⟩
          constructor
          · intro p c
            constructor
            · intro hmem
              rcases List.mem_cons.mp hmem with heq | hmem2
              · refine ⟨a, List.mem_cons_self a rest, hf, ?_, ?_⟩
                · exact (congrArg Prod.fst heq).symm
                · rw [hfo]
                  exact congrArg (fun x => FileOutcome.store x)
                    (congrArg Prod.snd heq).symm
              · rcases (hfs p c).mp hmem2 with ⟨it, h1, h2⟩
                exact ⟨it, List.mem_cons_of_mem a h1, h2⟩
            · rintro ⟨it, h1, h2, h3, h4⟩
              rcases List.mem_cons.mp h1 with rfl | h1
              · rw [hfo] at h4
                have hc : c0 = c := by injection h4
                rw [← h3, ← hc]
                exact List.mem_cons_self _ _
              · exact List.mem_cons_of_mem _ ((hfs p c).mpr ⟨it, h1, h2, h3, h4⟩)
          · intro d
            rw [hds d]
            constructor
            · rintro ⟨it, h1, h2⟩
              exact ⟨it, List.mem_cons_of_mem a h1, h2⟩
            · rintro ⟨it, h1, h2, h3⟩
              rcases List.mem_cons.mp h1 with rfl | h1
              · exact absurd (hf.symm.trans h2) (by decide)
              · exact ⟨it, h1, h2, h3⟩
    · rw [if_neg hf] at h
      by_cases hd : a.type = "dir"
      · rw [if_pos hd] at h
        cases hrest : processItems w rest with
        | keyError => rw [hrest] at h; cases h
        | fatal => rw [hrest] at h; cases h
        | ok fs0 ds0 =>
          rw [hrest] at h
          simp only [ItemsResult.ok.injEq] at h
          obtain ⟨hfs_eq, hds_eq⟩ := h
          subst hfs_eq; subst hds_eq
          rcases ih hrest with ⟨hfs, hds⟩
          constructor
          · intro p c
            rw [hfs p c]
            constructor
            · rintro ⟨it, h1, h2⟩
              exact ⟨it, List.mem_cons_of_mem a h1, h2⟩
            · rintro ⟨it, h1, h2, h3, h4⟩
              rcases List.mem_cons.mp h1 with rfl | h1
              · exact absurd (hd.symm.trans h2) (by decide)
              · exact ⟨it, h1, h2, h3, h4⟩
          · intro d
            constructor
            · intro hmem
              rcases List.mem_cons.mp hmem with heq | hmem2
              · exact ⟨a, List.mem_cons_self a rest, hd, heq.symm⟩
              · rcases (hds d).mp hmem2 with ⟨it, h1, h2⟩
                exact ⟨it, List.mem_cons_of_mem a h1, h2⟩
            · rintro ⟨it, h1, h2, h3⟩
              rcases List.mem_cons.mp h1 with rfl | h1
              · rw [← h3]; exact List.mem_cons_self _ _
              · exact List.mem_cons_of_mem _ ((hds d).mpr ⟨it, h1, h2, h3⟩)
      · rw [if_neg hd] at h
        rcases ih h with ⟨hfs, hds⟩
        constructor
        · intro p c
          rw [hfs p c]
          constructor
          · rintro ⟨it, h1, h2⟩
            exact ⟨it, List.mem_cons_of_mem a h1, h2⟩
          · rintro ⟨it, h1, h2, h3, h4⟩
            rcases List.mem_cons.mp h1 with rfl | h1
            · exact absurd h2 hf
            · exact ⟨it, h1, h2, h3, h4⟩
        · intro d
          rw [hds d]
          constructor
          · rintro ⟨it, h1, h2⟩
            exact ⟨it, List.mem_cons_of_mem a h1, h2⟩
          · rintro ⟨it, h1, h2, h3⟩
            rcases List.mem_cons.mp h1 with rfl | h1
            · exact absurd h2 hd
            · exact ⟨it, h1, h2, h3⟩

/-! ### Dictionary lemmas -/

lemma mem_dictInsert {d : List (String × String)} {k v : String}
    {pc : String × String} (h : pc ∈ dictInsert d k v) :
    pc ∈ d ∨ pc = (k, v) := by
  unfold dictInsert at h
  by_cases hany : d.any (fun p => p.1 = k) = true
  · rw [if_pos hany, List.mem_map] at h
    rcases h with ⟨q, hq, hfq⟩
    by_cases hk : q.1 = k
    · rw [if_pos hk] at hfq; exact Or.inr hfq.symm
    · rw [if_neg hk] at hfq; exact Or.inl (hfq ▸ hq)
  · rw [if_neg hany, List.mem_append] at h
    rcases h with h | h
    · exact Or.inl h
    · exact Or.inr (List.mem_singleton.mp h)

lemma isKey_dictInsert {d : List (String × String)} {k v p : String} :
    isKey (dictInsert d k v) p ↔ isKey d p ∨ p = k := by
  constructor
  · rintro ⟨c, hc⟩
    rcases mem_dictInsert hc with h | h
    · exact Or.inl ⟨c, h⟩
    · right; exact congrArg Prod.fst h
  · intro h
    unfold dictInsert
    by_cases hany : d.any (fun q => q.1 = k) = true
    · rw [if_pos hany]
      rcases List.any_eq_true.mp hany with ⟨q, hq, hqk⟩
      have hqk2 : q.1 = k := by simpa using hqk
      rcases h with ⟨c, hc⟩ | rfl
      · by_cases hk : p = k
        · subst hk
          exact ⟨v, List.mem_map.mpr ⟨q, hq, by rw [if_pos hqk2]⟩⟩
        · refine ⟨c, List.mem_map.mpr ⟨(p, c), hc, ?_⟩⟩
          rw [if_neg ?_]
          exact hk
      · exact ⟨v, List.mem_map.mpr ⟨q, hq, by rw [if_pos hqk2]⟩⟩
    · rw [if_neg hany]
      rcases h with ⟨c, hc⟩ | rfl
      · exact ⟨c, List.mem_append.mpr (Or.inl hc)⟩
      · exact ⟨v, List.mem_append.mpr (Or.inr (List.mem_singleton.mpr rfl))⟩

lemma mem_dictInsertAll {fs : List (String × String)} :
    ∀ {d : List (String × String)} {pc : String × String},
    pc ∈ dictInsertAll d fs → pc ∈ d ∨ pc ∈ fs := by
  induction fs with
  | nil => intro d pc h; exact Or.inl h
  | cons hd tl ih =>
    intro d pc h
    rcases ih (d := dictInsert d hd.1 hd.2) h with h2 | h2
    · rcases mem_dictInsert h2 with h3 | h3
      · exact Or.inl h3
      · right; rw [h3]; exact List.mem_cons_self _ _
    · exact Or.inr (List.mem_cons_of_mem _ h2)

lemma isKey_dictInsertAll {fs : List (String × String)} :
    ∀ {d : List (String × String)} {p : String},
    isKey (dictInsertAll d fs) p ↔ isKey d p ∨ ∃ c, (p, c) ∈ fs := by
  induction fs with
  | nil => intro d p; simp [dictInsertAll, isKey]
  | cons hd tl ih =>
    intro d p
    have : dictInsertAll d (hd :: tl) = dictInsertAll (dictInsert d hd.1 hd.2) tl := rfl
    rw [this, ih, isKey_dictInsert]
    constructor
    · rintro ((h | rfl) | ⟨c, hc⟩)
      · exact Or.inl h
      · exact Or.inr ⟨hd.2, by simp⟩
      · exact Or.inr ⟨c, List.mem_cons_of_mem _ hc⟩
    · rintro (h | ⟨c, hc⟩)
      · exact Or.inl (Or.inl h)
      · rcases List.mem_cons.mp hc with h2 | h2
        · left; right; rw [← h2]
        · exact Or.inr ⟨c, h2⟩

/-! ### Run-level lemmas -/

lemma reachFile_head {w : World} {d p : String} :
    ReachFile w d p ↔
      (∃ it ∈ listingItems (w.listing d), it.type = "file" ∧ it.path = p) ∨
      ∃ r, dirChild w d r ∧ ReachFile w r p := by
  constructor
  · rintro ⟨e, hreach, hfile⟩
    rcases Relation.ReflTransGen.cases_head hreach with rfl | ⟨r, hdr, hre⟩
    · exact Or.inl hfile
    · exact Or.inr ⟨r, hdr, e, hre, hfile⟩
  · rintro (hfile | ⟨r, hdr, e, hre, hfile⟩)
    · exact ⟨d, Relation.ReflTransGen.refl, hfile⟩
    · exact ⟨e, Relation.ReflTransGen.head hdr hre, hfile⟩

lemma runLoop_keys {w : World} :
    ∀ n (q : List String) (f files : List (String × String)),
    runLoop w n q f = some (.ok files) →
    (∀ r ∈ q, ∀ d, ReachDir w r d → listingOk (w.listing d)) →
    (∀ r ∈ q, ∀ d, ReachDir w r d → ∀ it ∈ listingItems (w.listing d),
        it.type = "file" → ∃ c, fileOutcome w it = .store c) →
    ∀ p, isKey files p ↔ (isKey f p ∨ ∃ r ∈ q, ReachFile w r p) := by
  intro n
  induction n with
  | zero => intro q f files h; cases h
  | succ n ih =>
    intro q f files hrun hok hretr p
    cases q with
    | nil =>
      simp only [runLoop, Option.some.injEq, RunResult.ok.injEq] at hrun
      subst hrun
      simp
    | cons d rest =>
      have hdreach : ReachDir w d d := Relation.ReflTransGen.refl
      have hok0 : listingOk (w.listing d) := hok d (List.mem_cons_self _ _) d hdreach
      obtain ⟨its, hits⟩ : ∃ its, itemsOf (w.listing d) = some its := by
        unfold listingOk at hok0
        exact Option.isSome_iff_exists.mp hok0
      have hlit : listingItems (w.listing d) = its := by
        unfold listingItems; rw [hits]; rfl
      obtain ⟨fs, ds, hpi⟩ := processItems_ok_of_retrievable
        (fun it hmem hty =>
          hretr d (List.mem_cons_self _ _) d hdreach it (by rw [hlit]; exact hmem) hty)
      have hrun2 : runLoop w n (rest ++ ds) (dictInsertAll f fs) = some (.ok files) := by
        have heq : runLoop w (n + 1) (d :: rest) f =
            runLoop w n (rest ++ ds) (dictInsertAll f fs) := by
          simp [runLoop, hits, hpi]
        rw [← heq]; exact hrun
      rcases processItems_spec hpi with ⟨hfs, hds⟩
      have hsub : ∀ r ∈ rest ++ ds, ∀ x, ReachDir w r x →
          ∃ r0 ∈ d :: rest, ReachDir w r0 x := by
        intro r hr x hx
        rcases List.mem_append.mp hr with hr | hr
        · exact ⟨r, List.mem_cons_of_mem _ hr, hx⟩
        · rcases (hds r).mp hr with ⟨it, hmem, hty, hpath⟩
          refine ⟨d, List.mem_cons_self _ _, ?_⟩
          exact Relation.ReflTransGen.head
            ⟨it, by rw [hlit]; exact hmem, hty, hpath⟩ hx
      have hok2 : ∀ r ∈ rest ++ ds, ∀ x, ReachDir w r x → listingOk (w.listing x) := by
        intro r hr x hx
        rcases hsub r hr x hx with ⟨r0, hr0, hx0⟩
        exact hok r0 hr0 x hx0
      have hretr2 : ∀ r ∈ rest ++ ds, ∀ x, ReachDir w r x →
          ∀ it ∈ listingItems (w.listing x), it.type = "file" →
          ∃ c, fileOutcome w it = .store c := by
        intro r hr x hx
        rcases hsub r hr x hx with ⟨r0, hr0, hx0⟩
        exact hretr r0 hr0 x hx0
      have key := ih (rest ++ ds) (dictInsertAll f fs) files hrun2 hok2 hretr2 p
      rw [key, isKey_dictInsertAll]
      constructor
      · rintro ((hf | ⟨c, hc⟩) | ⟨r, hr, hrf⟩)
        · exact Or.inl hf
        · rcases (hfs p c).mp hc with ⟨it, hmem, hty, hpath, _⟩
          exact Or.inr ⟨d, List.mem_cons_self _ _, d, Relation.ReflTransGen.refl,
            it, by rw [hlit]; exact hmem, hty, hpath⟩
        · rcases List.mem_append.mp hr with hr | hr
          · exact Or.inr ⟨r, List.mem_cons_of_mem _ hr, hrf⟩
          · rcases hrf with ⟨e, hre, hfile⟩
            rcases (hds r).mp hr with ⟨it, hmem, hty, hpath⟩
            exact Or.inr ⟨d, List.mem_cons_self _ _, e,
              Relation.ReflTransGen.head
                ⟨it, by rw [hlit]; exact hmem, hty, hpath⟩ hre, hfile⟩
      · rintro (hf | ⟨r, hr, hrf⟩)
        · exact Or.inl (Or.inl hf)
        · rcases List.mem_cons.mp hr with rfl | hr
          · rcases reachFile_head.mp hrf with hdirect | ⟨r2, hchild, hrf2⟩
            · rcases hdirect with ⟨it, hmem, hty, hpath⟩
              rcases hretr r (List.mem_cons_self _ _) r hdreach it hmem hty with ⟨c, hc⟩
              refine Or.inl (Or.inr ⟨c, (hfs p c).mpr
                ⟨it, ?_, hty, hpath, hc⟩⟩)
              rw [hlit] at hmem; exact hmem
            · rcases hchild with ⟨it, hmem, hty, hpath⟩
              have hr2 : r2 ∈ ds := (hds r2).mpr
                ⟨it, by rw [hlit] at hmem; exact hmem, hty, hpath⟩
              exact Or.inr ⟨r2, List.mem_append.mpr (Or.inr hr2), hrf2⟩
          · exact Or.inr ⟨r, List.mem_append.mpr (Or.inl hr), hrf⟩

lemma runLoop_visited_fail {w : World} :
    ∀ n (q : List String) (f : List (String × String)) (res : RunResult) (p : String),
    runLoop w n q f = some res → p ∈ visited w n q →
    itemsOf (w.listing p) = none → res = .ok [] := by
  intro n
  induction n with
  | zero => intro q f res p _ hv _; simp [visited] at hv
  | succ n ih =>
    intro q f res p hrun hv hfail
    cases q with
    | nil => simp [visited] at hv
    | cons d rest =>
      cases hlist : itemsOf (w.listing d) with
      | none =>
        have : some (RunResult.ok []) = some res := by
          rw [← hrun]; simp [runLoop, hlist]
        injection this with this
        exact this.symm
      | some its =>
        cases hpi : processItems w its with
        | keyError =>
          have hv2 : p = d := by simpa [visited, hlist, hpi] using hv
          rw [hv2, hlist] at hfail; cases hfail
        | fatal =>
          have : some (RunResult.ok []) = some res := by
            rw [← hrun]; simp [runLoop, hlist, hpi]
          injection this with this
          exact this.symm
        | ok fs ds =>
          have hv3 : p = d ∨ p ∈ visited w n (rest ++ ds) := by
            simpa [visited, hlist, hpi] using hv
          rcases hv3 with rfl | hv3
          · rw [hlist] at hfail; cases hfail
          · have hrun2 : runLoop w n (rest ++ ds) (dictInsertAll f fs) = some res := by
              have heq : runLoop w (n + 1) (d :: rest) f =
                  runLoop w n (rest ++ ds) (dictInsertAll f fs) := by
                simp [runLoop, hlist, hpi]
              rw [← heq]; exact hrun
            exact ih _ _ _ _ hrun2 hv3 hfail

lemma runLoop_keys_reported {w : World} :
    ∀ n (q : List String) (f files : List (String × String)),
    runLoop w n q f = some (.ok files) →
    ∀ pc ∈ files, pc ∈ f ∨ ∃ d ∈ visited w n q,
      ∃ it ∈ listingItems (w.listing d), it.type = "file" ∧ it.path = pc.1 := by
  intro n
  induction n with
  | zero => intro q f files h; cases h
  | succ n ih =>
    intro q f files hrun pc hpc
    cases q with
    | nil =>
      simp only [runLoop, Option.some.injEq, RunResult.ok.injEq] at hrun
      subst hrun
      exact Or.inl hpc
    | cons d rest =>
      cases hlist : itemsOf (w.listing d) with
      | none =>
        have hempty : some (RunResult.ok []) = some (RunResult.ok files) := by
          rw [← hrun]; simp [runLoop, hlist]
        injection hempty with hempty
        injection hempty with hempty
        rw [← hempty] at hpc; cases hpc
      | some its =>
        cases hpi : processItems w its with
        | keyError =>
          have : some RunResult.keyError = some (RunResult.ok files) := by
            rw [← hrun]; simp [runLoop, hlist, hpi]
          injection this with this; cases this
        | fatal =>
          have hempty : some (RunResult.ok []) = some (RunResult.ok files) := by
            rw [← hrun]; simp [runLoop, hlist, hpi]
          injection hempty with hempty
          injection hempty with hempty
          rw [← hempty] at hpc; cases hpc
        | ok fs ds =>
          have hrun2 : runLoop w n (rest ++ ds) (dictInsertAll f fs) = some (.ok files) := by
            have heq : runLoop w (n + 1) (d :: rest) f =
                runLoop w n (rest ++ ds) (dictInsertAll f fs) := by
              simp [runLoop, hlist, hpi]
            rw [← heq]; exact hrun
          have hvis : visited w (n + 1) (d :: rest) = d :: visited w n (rest ++ ds) := by
            simp [visited, hlist, hpi]
          have hlit : listingItems (w.listing d) = its := by
            unfold listingItems; rw [hlist]; rfl
          rcases ih _ _ _ hrun2 pc hpc with h | ⟨d2, hd2, hit⟩
          · rcases mem_dictInsertAll h with h2 | h2
            · exact Or.inl h2
            · rcases processItems_spec hpi with ⟨hfs, _⟩
              rcases (hfs pc.1 pc.2).mp (by exact h2) with ⟨it, hmem, hty, hpath, _⟩
              refine Or.inr ⟨d, by rw [hvis]; exact List.mem_cons_self _ _,
                it, by rw [hlit]; exact hmem, hty, hpath⟩
          · exact Or.inr ⟨d2, by rw [hvis]; exact List.mem_cons_of_mem _ hd2, hit⟩

/-! ### Characterisation of the example world -/

lemma dirChild_wEx {x y : String} (h : dirChild wEx x y) : x = "" ∧ y = "sub" := by
  rcases h with ⟨it, hmem, hty, hpath⟩
  by_cases hx : x = ""
  · subst hx
    simp [wEx, listingItems, itemsOf] at hmem
    rcases hmem with rfl | rfl
    · simp [aItem] at hty
    · refine ⟨rfl, ?_⟩
      rw [← hpath]; rfl
  · by_cases hx2 : x = "sub"
    · subst hx2
      simp [wEx, listingItems, itemsOf] at hmem
      subst hmem
      simp [bItem] at hty
    · simp [wEx, hx, hx2, listingItems, itemsOf] at hmem

lemma reachDir_wEx {d : String} (h : ReachDir wEx "" d) : d = "" ∨ d = "sub" := by
  induction h with
  | refl => exact Or.inl rfl
  | tail _ h2 _ => exact Or.inr (dirChild_wEx h2).2

lemma reachFile_wEx {p : String} (h : ReachFile wEx "" p) :
    p = "a.txt" ∨ p = "sub/b.txt" := by
  rcases h with ⟨d, hd, it, hmem, hty, hpath⟩
  rcases reachDir_wEx hd with rfl | rfl
  · simp [wEx, listingItems, itemsOf] at hmem
    rcases hmem with rfl | rfl
    · left; rw [← hpath]; rfl
    · simp [subItem] at hty
  · simp [wEx, listingItems, itemsOf] at hmem
    subst hmem
    right; rw [← hpath]; rfl

lemma reachDirEntry_wEx {p : String} (h : ReachDirEntry wEx "" p) : p = "sub" := by
  rcases h with ⟨d, hd, it, hmem, hty, hpath⟩
  rcases reachDir_wEx hd with rfl | rfl
  · simp [wEx, listingItems, itemsOf] at hmem
    rcases hmem with rfl | rfl
    · simp [aItem] at hty
    · rw [← hpath]; rfl
  · simp [wEx, listingItems, itemsOf] at hmem
    subst hmem
    simp [bItem] at hty

lemma wEx_listingOk : ∀ d, ReachDir wEx "" d → listingOk (wEx.listing d) := by
  intro d h
  rcases reachDir_wEx h with rfl | rfl
  · unfold listingOk; decide
  · unfold listingOk; decide

lemma wEx_retrievable : ∀ d, ReachDir wEx "" d →
    ∀ it ∈ listingItems (wEx.listing d), it.type = "file" →
    ∃ c, fileOutcome wEx it = .store c := by
  intro d h it hmem hty
  rcases reachDir_wEx h with rfl | rfl
  · simp [wEx, listingItems, itemsOf] at hmem
    rcases hmem with rfl | rfl
    · exact ⟨"hello", by decide⟩
    · simp [subItem] at hty
  · simp [wEx, listingItems, itemsOf] at hmem
    subst hmem
    exact ⟨"world", by decide⟩

lemma wEx_tree : ∀ p, ReachFile wEx "" p → ¬ ReachDirEntry wEx "" p := by
  intro p hf hd
  have h2 := reachDirEntry_wEx hd
  subst h2
  rcases reachFile_wEx hf with h1 | h1 <;> exact absurd h1 (by decide)

/-! ### Further small worlds used to exhibit concrete behaviours -/

/-- A world whose root listing succeeds (listing `a.txt` and `sub/`) but
whose `sub` listing is 404, and whose downloads all fail. -/
def w404 : World where
  listing p := if p = "" then .listItems [aItem, subItem] else .httpError 404
  download _ := none

/-- A world with no listable paths and no successful downloads. -/
def wNone : World where
  listing _ := .httpError 404
  download _ := none

/-- A world whose root path resolves to the single file `a.txt`, so the
listing API returns an object rather than a list. -/
def wSingle : World where
  listing p := if p = "" then .objectItem aItem else .httpError 404
  download _ := none

/-- A file entry with truthy inline content but no encoding key at all:
reading `item["encoding"]` raises `KeyError`. -/
def kItem : Item := { type := "file", path := "k.txt", content := some "aGVsbG8=" }

/-- A world whose root listing contains exactly `kItem`. -/
def wKey : World where
  listing p := if p = "" then .listItems [kItem] else .httpError 404
  download _ := none

/-- A file entry whose base64 content "aG" has incorrect padding (the
quad is left incomplete), so `b64decode` raises `binascii.Error` and
the file is skipped. -/
def mItem : Item :=
  { type := "file", path := "m.txt", content := some "aG", encoding := some "base64" }

/-- A file entry whose inline content holds a non-ASCII character:
`b64decode` raises a bare `ValueError` from its implicit
`.encode("ascii")`, which no inner handler catches. -/
def eItem : Item :=
  { type := "file", path := "e.txt", content := some "éa", encoding := some "base64" }

/-- A world whose root listing holds the non-ASCII-content entry
`eItem` followed by the perfectly retrievable `aItem`. -/
def wBug : World where
  listing p := if p = "" then .listItems [eItem, aItem] else .httpError 404
  download _ := none

/-- A file entry carrying both a download URL (whose fetch fails in
`wNone`) and perfectly valid inline base64 content. -/
def cItem : Item :=
  { type := "file", path := "c.txt", download_url := some "https://raw.example/c.txt",
    content := some "aGVsbG8=", encoding := some "base64" }

/-! ### The claims -/

/-- Claim C1: for every repository tree whose listing requests all
succeed along the reachable directories, whose reachable file entries
are all retrievable (each produces a stored content — in particular
none hits the run-fatal non-ASCII `ValueError` or the `KeyError`), and
whose reachable file paths and directory paths are disjoint (a proper
tree), the key set of the mapping returned by `get_github_code_files`
is exactly the set of file paths reachable from the starting path, and
no directory path appears as a key. -/
theorem keys_eq_reachable_files (w : World) (fuel : Nat) (path : String)
    (files : List (String × String))
    (hrun : get_github_code_files w fuel path = some (.ok files))
    (hok : ∀ d, ReachDir w (stripSlashes path) d → listingOk (w.listing d))
    (hretr : ∀ d, ReachDir w (stripSlashes path) d →
      ∀ it ∈ listingItems (w.listing d), it.type = "file" →
      ∃ c, fileOutcome w it = .store c)
    (htree : ∀ p, ReachFile w (stripSlashes path) p →
      ¬ ReachDirEntry w (stripSlashes path) p) :
    (∀ p, isKey files p ↔ ReachFile w (stripSlashes path) p) ∧
    (∀ p, isKey files p → ¬ ReachDirEntry w (stripSlashes path) p) := by
  have hkeys := runLoop_keys fuel [stripSlashes path] [] files hrun
    (by
      intro r hr d hd
      have hr2 := List.mem_singleton.mp hr
      subst hr2
      exact hok d hd)
    (by
      intro r hr d hd
      have hr2 := List.mem_singleton.mp hr
      subst hr2
      exact hretr d hd)
  have main : ∀ p, isKey files p ↔ ReachFile w (stripSlashes path) p := by
    intro p
    rw [hkeys p]
    simp [isKey]
  exact ⟨main, fun p hk => htree p ((main p).mp hk)⟩

/-- Claim C1 witness: the example tree, checked at the path a.txt. -/
theorem keys_eq_reachable_files_witness :
    (isKey [("a.txt", "hello"), ("sub/b.txt", "world")] "a.txt" ↔
      ReachFile wEx "" "a.txt") ∧
    (isKey [("a.txt", "hello"), ("sub/b.txt", "world")] "a.txt" →
      ¬ ReachDirEntry wEx "" "a.txt") := by
  have hs : stripSlashes "" = "" := by decide
  have h := keys_eq_reachable_files wEx 3 ""
    [("a.txt", "hello"), ("sub/b.txt", "world")] (by decide)
    (by rw [hs]; exact wEx_listingOk)
    (by rw [hs]; exact wEx_retrievable)
    (by rw [hs]; exact wEx_tree)
  rw [hs] at h
  exact ⟨h.1 "a.txt", h.2 "a.txt"⟩

/-- Claim C2: if any listing request made during a run fails — a non-2xx
HTTP status, a transport error, or an unparseable JSON body, all of
which are the `itemsOf`-is-`none` responses — the run returns the empty
mapping, no matter what had been accumulated before the failure. -/
theorem listing_failure_empty (w : World) (n : Nat) (q : List String)
    (files : List (String × String)) (res : RunResult) (p : String)
    (hrun : runLoop w n q files = some res)
    (hvis : p ∈ visited w n q)
    (hfail : itemsOf (w.listing p) = none) :
    res = .ok [] :=
  runLoop_visited_fail n q files res p hrun hvis hfail

/-- Claim C2 witness: in `w404` the root is listed (accumulating
a.txt), then the listing of sub fails with 404, and the whole run
returns the empty mapping. -/
theorem listing_failure_empty_witness : RunResult.ok [] = RunResult.ok [] :=
  listing_failure_empty w404 3 [""] [] (.ok []) "sub"
    (by decide) (by decide) (by decide)

/-- Claim C3 is refuted by the code at a concrete input: the claim (and
the spec) say a file entry whose inline content does not decode is
skipped with a warning and the run continues, but for the non-ASCII
content of `eItem` the call `base64.b64decode(item["content"])` raises
a bare `ValueError` (from its implicit `.encode("ascii")`), which the
inner `except (binascii.Error, UnicodeDecodeError)` does not match;
the outer `except ValueError` — written for JSON parse errors — catches
it and returns the empty dict.  The run aborts and the retrievable
sibling `aItem` is discarded, where the claim requires the mapping with
exactly that sibling. -/
theorem nonascii_content_aborts_run :
    b64decodeUtf8 "éa" = DecodeOutcome.plainValueError ∧
    fileOutcome wBug eItem = FileOutcome.fatal ∧
    fileOutcome wBug aItem = FileOutcome.store "hello" ∧
    get_github_code_files wBug 2 "" = some (RunResult.ok []) := by decide

/-- Claim C4: the two-tier retrieval priority.  If the entry has a
non-empty download URL its outcome is determined by the download
request alone — the raw response text stored verbatim on success, a
skip on failure — and the inline fields are never consulted; only with
no usable download URL is the inline base64 content decoded, its
decode result alone determining the outcome. -/
theorem retrieval_priority (w : World) (it : Item) :
    (∀ u, it.download_url = some u → u ≠ "" →
      fileOutcome w it = (match w.download u with
        | some t => FileOutcome.store t
        | none => FileOutcome.skip)) ∧
    (hasDownloadUrl it = false → ∀ c, it.content = some c → c ≠ "" →
      it.encoding = some "base64" →
      fileOutcome w it = (match b64decodeUtf8 c with
        | .ok s => FileOutcome.store s
        | .caughtError => FileOutcome.skip
        | .plainValueError => FileOutcome.fatal)) := by
  constructor
  · intro u hu hne
    have hdu : hasDownloadUrl it = true := by simp [hasDownloadUrl, hu, hne]
    have hgd : it.download_url.getD "" = u := by rw [hu]; rfl
    simp only [fileOutcome, hdu, if_true, hgd]
  · intro hdl c hc hcne henc
    have hic : hasInlineContent it = true := by simp [hasInlineContent, hc, hcne]
    have hgd : it.content.getD "" = c := by rw [hc]; rfl
    simp only [fileOutcome, hdl, hic, henc, hgd]
    cases hdec : b64decodeUtf8 c <;> simp [hdec]

/-- Claim C4 witness: in the example world the download-URL entry
stores the downloaded text and the inline entry stores the decoded
base64 content. -/
theorem retrieval_priority_witness :
    fileOutcome wEx bItem = (match wEx.download "https://raw.example/b.txt" with
      | some t => FileOutcome.store t
      | none => FileOutcome.skip) ∧
    fileOutcome wEx aItem = (match b64decodeUtf8 "aGVsbG8=" with
      | .ok s => FileOutcome.store s
      | .caughtError => FileOutcome.skip
      | .plainValueError => FileOutcome.fatal) :=
  ⟨(retrieval_priority wEx bItem).1 "https://raw.example/b.txt" rfl (by decide),
   (retrieval_priority wEx aItem).2 rfl "aGVsbG8=" rfl (by decide) rfl⟩

/-- Claim C5: when the starting path resolves to a single file — the
listing API returns one object, which the code wraps into a one-element
list — and that file is retrieved (its outcome stores a content), the
returned mapping holds exactly that one file. -/
theorem single_file_result (w : World) (n : Nat) (path : String)
    (it : Item) (c : String)
    (hobj : w.listing (stripSlashes path) = .objectItem it)
    (hty : it.type = "file")
    (hc : fileOutcome w it = FileOutcome.store c) :
    get_github_code_files w (n + 2) path = some (.ok [(it.path, c)]) := by
  unfold get_github_code_files
  have h1 : itemsOf (w.listing (stripSlashes path)) = some [it] := by
    rw [hobj]; rfl
  have h2 : processItems w [it] = .ok [(it.path, c)] [] := by
    simp [processItems, hty, hc]
  have heq : runLoop w (n + 2) [stripSlashes path] [] =
      runLoop w (n + 1) ([] ++ []) (dictInsertAll [] [(it.path, c)]) := by
    simp [runLoop, h1, h2]
  rw [heq]
  simp [runLoop, dictInsertAll, dictInsert]

/-- Claim C5 witness: a world whose root is the single file `a.txt`. -/
theorem single_file_result_witness :
    get_github_code_files wSingle 2 "/" = some (.ok [(aItem.path, "hello")]) :=
  single_file_result wSingle 0 "/" aItem "hello" (by decide) rfl (by decide)

/-- Claim C6: every path appended to the traversal queue by the item
loop came from an entry the listing reported as a directory, and every
key inserted into the result mapping came from an entry some listing
made during the run reported as a file. -/
theorem queue_and_keys_reported (w : World) :
    (∀ its fs ds, processItems w its = .ok fs ds →
      (∀ d ∈ ds, ∃ it ∈ its, it.type = "dir" ∧ it.path = d) ∧
      (∀ pc ∈ fs, ∃ it ∈ its, it.type = "file" ∧ it.path = pc.1)) ∧
    (∀ n q files, runLoop w n q [] = some (.ok files) →
      ∀ pc ∈ files, ∃ d ∈ visited w n q,
        ∃ it ∈ listingItems (w.listing d), it.type = "file" ∧ it.path = pc.1) := by
  constructor
  · intro its fs ds hpi
    rcases processItems_spec hpi with ⟨hfs, hds⟩
    constructor
    · intro d hd
      rcases (hds d).mp hd with ⟨it, hmem, hty, hpath⟩
      exact ⟨it, hmem, hty, hpath⟩
    · intro pc hpc
      rcases (hfs pc.1 pc.2).mp (by exact hpc) with ⟨it, hmem, hty, hpath, _⟩
      exact ⟨it, hmem, hty, hpath⟩
  · intro n q files hrun pc hpc
    rcases runLoop_keys_reported n q [] files hrun pc hpc with h | h
    · cases h
    · exact h

/-- Claim C6 witness: in the example world, "sub" was enqueued because
its entry is a directory, and the key "a.txt" was reported as a file. -/
theorem queue_and_keys_reported_witness :
    (∃ it ∈ [aItem, subItem], it.type = "dir" ∧ it.path = "sub") ∧
    (∃ d ∈ visited wEx 3 [""], ∃ it ∈ listingItems (wEx.listing d),
      it.type = "file" ∧ it.path = "a.txt") :=
  ⟨((queue_and_keys_reported wEx).1 [aItem, subItem] [("a.txt", "hello")] ["sub"]
      (by decide)).1 "sub" (by decide),
   (queue_and_keys_reported wEx).2 3 [""] [("a.txt", "hello"), ("sub/b.txt", "world")]
      (by decide) ("a.txt", "hello") (by decide)⟩

/-- Claim C7: on the fixed tree — root holding `a.txt` with base64-only
content "hello" and subdirectory `sub/` holding `b.txt` with content
"world" behind a download URL — the function returns exactly the
mapping with keys "a.txt" and "sub/b.txt" and those contents. -/
theorem example_tree_result :
    get_github_code_files wEx 3 "" =
      some (.ok [("a.txt", "hello"), ("sub/b.txt", "world")]) := by decide

/-- Claim C8: the fetch is a deterministic function of the remote
state: two runs against the same unchanged world yield mappings equal
as lists, hence with the same keys and values. -/
theorem fetch_idempotent (w : World) (fuel : Nat) (path : String)
    (m1 m2 : List (String × String))
    (h1 : get_github_code_files w fuel path = some (.ok m1))
    (h2 : get_github_code_files w fuel path = some (.ok m2)) :
    m1 = m2 ∧ ∀ p, (isKey m1 p ↔ isKey m2 p) := by
  have h := h1.symm.trans h2
  injection h with h
  injection h with h
  exact ⟨h, fun p => by rw [h]⟩

/-- Claim C8 witness: two runs on the example world agree. -/
theorem fetch_idempotent_witness :
    [("a.txt", "hello"), ("sub/b.txt", "world")] =
      [("a.txt", "hello"), ("sub/b.txt", "world")] :=
  (fetch_idempotent wEx 3 ""
    [("a.txt", "hello"), ("sub/b.txt", "world")]
    [("a.txt", "hello"), ("sub/b.txt", "world")]
    (by decide) (by decide)).1

/-- Claim C9: a file entry with no usable download URL, a truthy
content field and no encoding key makes `item["encoding"]` raise
`KeyError`; no handler catches `KeyError`, so the run dies with the
exception instead of skipping the file or returning a mapping.  The
hypothesis that no sibling file entry in the same listing hits the
run-fatal non-ASCII `ValueError` is needed: such a sibling processed
earlier would end the call before the `KeyError` is raised. -/
theorem missing_encoding_keyError (w : World) (n : Nat) (p : String)
    (rest : List String) (files : List (String × String))
    (its : List Item) (it : Item) (c : String)
    (hls : w.listing p = .listItems its) (hmem : it ∈ its)
    (hty : it.type = "file") (hdl : hasDownloadUrl it = false)
    (hc : it.content = some c) (hcne : c ≠ "") (henc : it.encoding = none)
    (hnf : ∀ j ∈ its, j.type = "file" → fileOutcome w j ≠ FileOutcome.fatal) :
    fileOutcome w it = FileOutcome.keyError ∧
    runLoop w (n + 1) (p :: rest) files = some RunResult.keyError := by
  have hic : hasInlineContent it = true := by simp [hasInlineContent, hc, hcne]
  have ho : fileOutcome w it = FileOutcome.keyError := by
    simp [fileOutcome, hdl, hic, henc]
  refine ⟨ho, ?_⟩
  have hpi : processItems w its = .keyError := processItems_keyError hnf hmem hty ho
  have h1 : itemsOf (w.listing p) = some its := by rw [hls]; rfl
  simp [runLoop, h1, hpi]

/-- Claim C9 witness: `kItem` (content but no encoding key) kills the
run with a KeyError. -/
theorem missing_encoding_keyError_witness :
    fileOutcome wKey kItem = FileOutcome.keyError ∧
    runLoop wKey (0 + 1) ("" :: []) [] = some RunResult.keyError :=
  missing_encoding_keyError wKey 0 "" [] [] [kItem] kItem "aGVsbG8="
    (by decide) (by decide) rfl rfl rfl (by decide) rfl (by decide)

/-- Claim C10: an entry with a non-empty download URL whose fetch fails
is skipped outright — its inline base64 content, however valid, is
never consulted as a fallback, and the entry is absent from the
result. -/
theorem no_inline_fallback (w : World) (it : Item) (u : String)
    (pre post : List Item)
    (hty : it.type = "file") (hu : it.download_url = some u) (hne : u ≠ "")
    (hdl : w.download u = none) :
    fileOutcome w it = FileOutcome.skip ∧
    processItems w (pre ++ it :: post) = processItems w (pre ++ post) := by
  have hdu : hasDownloadUrl it = true := by simp [hasDownloadUrl, hu, hne]
  have hgd : it.download_url.getD "" = u := by rw [hu]; rfl
  have ho : fileOutcome w it = FileOutcome.skip := by
    simp [fileOutcome, hdu, hgd, hdl]
  exact ⟨ho, processItems_skip_middle hty ho pre post⟩

/-- Claim C10 witness: `cItem` has a failing download URL and valid
inline base64 content, yet is skipped. -/
theorem no_inline_fallback_witness :
    fileOutcome wNone cItem = FileOutcome.skip ∧
    processItems wNone ([] ++ cItem :: []) = processItems wNone ([] ++ []) :=
  no_inline_fallback wNone cItem "https://raw.example/c.txt" [] [] rfl rfl
    (by decide) rfl
